import Mathlib

/-!
Verification development for the wasteland-cracker repository.

Shallow embedding conventions:
* Rust strings are modelled as `List Char` (all words and filler characters in
  this program are ASCII, so Rust byte offsets coincide with character offsets).
* The injected randomness capability `RangeRng` is modelled by a raw entropy
  stream `rng : Nat → Nat` together with `genRange lo hi r = lo + r % (hi - lo)`:
  every behaviour of a `gen_range` implementation that respects the
  `[lower, upper)` contract is realised by some stream, and every stream yields
  an in-contract behaviour (for a non-empty range).
* Rust `usize` arithmetic that can panic (underflow of `-`, out-of-bounds
  indexing, out-of-range `insert_str`, failed `assert!`) is modelled with
  `Option`: `none` marks an abort of the process.
-/

/-- Word of the puzzle: a Rust string, modelled as its character list. -/
abbrev Word := List Char

/-- Embedding of `utils::str_utils::matching_char_count_ignore_case`: zip the
two character sequences, keep the positions whose characters agree after ASCII
lowercasing, and count them.  (`Char.toLower` lowercases exactly the basic
latin letters, as Rust's `to_ascii_lowercase` does.)  The Rust function first
asserts `a.len() == b.len()`; the zip makes the count total, and theorems carry
the equal-length hypothesis where the claims state it. -/
def matching_char_count_ignore_case (a b : Word) : Nat :=
  ((a.zip b).filter (fun p => p.1.toLower == p.2.toLower)).length

/-- Embedding of `utils::str_utils::hamming_dist_ignore_case`:
`a.len() - matching_char_count_ignore_case(a, b)` (on equal-length inputs). -/
def hamming_dist_ignore_case (a b : Word) : Nat :=
  a.length - matching_char_count_ignore_case a b

/-- Model of `RangeRng::gen_range(lower, upper)` fed with the raw entropy `r`:
returns `lower + r % (upper - lower)`, a value in `[lower, upper)` whenever the
range is non-empty.  Quantifying over `r` quantifies over every in-contract
behaviour of the injected rng. -/
def genRange (lo hi r : Nat) : Nat := lo + r % (hi - lo)

/-- Embedding of `dict::dict::EnglishDictChunk`: a word length and the ordered
word set (all members of length `word_len`). -/
structure EnglishDictChunk where
  word_len : Nat
  word_set : List Word

/-- One pass of `HammingDistanceIterator::next`'s scan at a fixed candidate
distance `d`: walk the remaining chunk members in order and emit
`(candidate, d)` for each member whose case-insensitive Hamming distance to
`cmp` equals `d`.  This is the iterator's behaviour while
`next_candidate_distance = d`, with the remaining list standing for the chunk
members from `next_item_candidate_index` on. -/
def scanRest (cmp : Word) (d : Nat) : List Word → List (Word × Nat)
  | [] => []
  | w :: rest =>
    if hamming_dist_ignore_case w cmp = d then (w, d) :: scanRest cmp d rest
    else scanRest cmp d rest

/-- The `HammingDistanceIterator` loop: `lv` distance levels remain, starting
at candidate distance `d`.  When the index wraps past the end of the word set
the iterator restarts the scan at distance `d + 1`; the loop ends once the
candidate distance exceeds the chunk's word length (`lv = 0`). -/
def scanLevels (cmp : Word) (set : List Word) : Nat → Nat → List (Word × Nat)
  | 0, _ => []
  | lv + 1, d => scanRest cmp d set ++ scanLevels cmp set lv (d + 1)

/-- Embedding of `EnglishDictChunk::get_hamming_distance_sorted_words`: the
full (finite) sequence of `(word, distance)` pairs produced by the returned
`HammingDistanceIterator`, which starts at `next_candidate_distance = 1`,
`next_item_candidate_index = 0` and runs until the distance exceeds
`word_len`.  (On an empty word set the Rust iterator would index out of
bounds; the model emits the empty sequence, and theorems that need it carry a
non-empty hypothesis.) -/
def get_hamming_distance_sorted_words (chunk : EnglishDictChunk) (word : Word) :
    List (Word × Nat) :=
  scanLevels word chunk.word_set chunk.word_len 1

/-- Embedding of `game::HDDEntry` (hamming-distance distribution entry). -/
structure HDDEntry where
  num_words : Nat
  hamming_distance : Nat
deriving DecidableEq

/-- The candidate-consumption loop of `game::generate_words`, with the tier
tracker `[HDDEntry; 4]` plus its moving index modelled as the list of
not-yet-satisfied tiers.  `none` models the aborts of the Rust loop: the
`assert_ne!(num_words, 0)` at the top of the loop, and the
`assert_eq!(words.len(), total + 1)` that fails after a `break` when the
iterator is exhausted with tiers still unsatisfied. -/
def fillTiers : List (Word × Nat) → List HDDEntry → Option (List Word)
  | _, [] => some []
  | [], _ :: _ => none
  | (w, d) :: rest, e :: tiers =>
    if e.num_words = 0 then none
    else if e.hamming_distance ≤ d then
      if e.num_words = 1 then (fillTiers rest tiers).map (fun ds => w :: ds)
      else
        (fillTiers rest
          ({ num_words := e.num_words - 1,
             hamming_distance := e.hamming_distance } :: tiers)).map
          (fun ds => w :: ds)
    else fillTiers rest (e :: tiers)

/-- Total number of decoys requested by a tier profile (Σ `num_words`). -/
def sumCounts (tiers : List HDDEntry) : Nat :=
  (tiers.map (fun e => e.num_words)).sum

/-- Minimum distance of the tier that the decoy at position `i` (0-based,
within the decoy list) is assigned to: the first `num_words` decoys belong to
the first tier, the next batch to the second tier, and so on. -/
def tierMinAt : List HDDEntry → Nat → Nat
  | [], _ => 0
  | e :: tiers, i =>
    if i < e.num_words then e.hamming_distance else tierMinAt tiers (i - e.num_words)

/-- Embedding of `game::generate_words`: pick the goal word uniformly
(`get_random_word` = `select_rand`, one `gen_range(0, word_set.len())` call,
which panics on an empty set — modelled by `none`), then run the tier loop on
the distance-ranked stream.  Returns the full word list (goal first, decoys in
acceptance order) together with the goal word. -/
def generate_words (chunk : EnglishDictChunk) (tiers : List HDDEntry)
    (rng : Nat → Nat) : Option (List Word × Word) :=
  match chunk.word_set with
  | [] => none
  | _ :: _ =>
    let goal := chunk.word_set.getD (genRange 0 chunk.word_set.length (rng 0)) []
    match fillTiers (get_hamming_distance_sorted_words chunk goal) tiers with
    | none => none
    | some ds => some (goal :: ds, goal)

/-- Embedding of `game::HexDumpPane`, restricted to the two fields the cursor
logic reads (`dump_width`, `dump_height`).  They are `i32` in the source but
non-negative in every use, so they are modelled as `Nat`; the address-rendering
fields are not used by any claim. -/
structure HexDumpPane where
  dump_width : Nat
  dump_height : Nat
deriving DecidableEq

/-- Embedding of `HexDumpPane::max_bytes_in_pane`. -/
def max_bytes_in_pane (dims : HexDumpPane) : Nat :=
  dims.dump_width * dims.dump_height

/-- Embedding of `game::SelectedChunk`. -/
structure SelectedChunk where
  pane_num : Nat
  row_num : Nat
  col_start : Nat
  len : Nat
deriving DecidableEq

/-- Embedding of `game::Movement`. -/
inductive Movement where
  | Left
  | Right
  | Up
  | Down

/-- The `cursor_index` computation shared by `refit_selection`,
`try_select_word` and `render_game_window`:
`pane * (width * height) + row * width + col`. -/
def addrOf (sel : SelectedChunk) (dims : HexDumpPane) : Nat :=
  sel.pane_num * max_bytes_in_pane dims + sel.row_num * dims.dump_width +
    sel.col_start

/-- Embedding of `game::move_selection`.  The Rust function computes in `i32`
and casts the results back to `usize`; the model mirrors this with `Int`
arithmetic and a final `Int.toNat` (after the wrap logic every component is
non-negative whenever the input state satisfies the grid invariants). -/
def move_selection (sel : SelectedChunk) (mv : Movement) (dims : HexDumpPane)
    (num_panes : Nat) : SelectedChunk :=
  let moves : Int × Int :=
    match mv with
    | .Down => (0, 1)
    | .Up => (0, -1)
    | .Left => (-1, 0)
    | .Right => ((sel.len : Int), 0)
  let nextCol0 : Int := moves.1 + (sel.col_start : Int)
  let nextRow0 : Int := moves.2 + (sel.row_num : Int)
  let nextPane0 : Int := (sel.pane_num : Int)
  let colPane : Int × Int :=
    if nextCol0 ≥ (dims.dump_width : Int) then (0, nextPane0 + 1)
    else if nextCol0 < 0 then ((dims.dump_width : Int) - 1, nextPane0 - 1)
    else (nextCol0, nextPane0)
  let nextRow : Int :=
    if nextRow0 ≥ (dims.dump_height : Int) then 0
    else if nextRow0 < 0 then (dims.dump_height : Int) - 1
    else nextRow0
  let nextPane : Int :=
    if colPane.2 ≥ (num_panes : Int) then 0
    else if colPane.2 < 0 then 1
    else colPane.2
  { pane_num := nextPane.toNat, row_num := nextRow.toNat,
    col_start := colPane.1.toNat, len := 1 }

/-- The scan loop of `game::refit_selection` over the zipped
`(word, word_offset)` ranges.  The first range containing the cursor address
updates the selection and breaks; `none` models the `usize` underflow panics
of the source (`pane_num -= 1` at pane 0 when the row also has to wrap, and
`width - cursor_offset` when the in-word offset exceeds the pane width). -/
def refitGo (dims : HexDumpPane) (cursor : Nat) (sel : SelectedChunk) :
    List (Word × Nat) → Option SelectedChunk
  | [] => some sel
  | (w, o) :: rest =>
    if o ≤ cursor ∧ cursor < o + w.length then
      let cursor_offset := cursor - o
      if cursor_offset ≤ sel.col_start then
        some { sel with col_start := sel.col_start - cursor_offset, len := w.length }
      else if dims.dump_width < cursor_offset then none
      else if 0 < sel.row_num then
        some { sel with row_num := sel.row_num - 1,
                        col_start := sel.col_start + (dims.dump_width - cursor_offset),
                        len := w.length }
      else if sel.pane_num = 0 then none
      else
        some { pane_num := sel.pane_num - 1, row_num := dims.dump_height - 1,
               col_start := sel.col_start + (dims.dump_width - cursor_offset),
               len := w.length }
    else refitGo dims cursor sel rest

/-- Embedding of `game::refit_selection`: compute the linear cursor address
and scan the word ranges. -/
def refit_selection (sel : SelectedChunk) (words : List Word)
    (word_offsets : List Nat) (dims : HexDumpPane) : Option SelectedChunk :=
  refitGo dims (addrOf sel dims) sel (words.zip word_offsets)

/-- The scan loop of `game::try_select_word`.  A range containing the cursor
triggers `assert_eq!(cursor_index, offset)` and
`assert_eq!(selection.len, word.len())`; a failed assertion aborts (`none`),
a passed pair returns the word (`some (some w)`), and an exhausted scan
returns `None` (`some none`). -/
def trySelectGo (cursor selLen : Nat) : List (Word × Nat) → Option (Option Word)
  | [] => some none
  | (w, o) :: rest =>
    if o ≤ cursor ∧ cursor < o + w.length then
      if cursor = o ∧ selLen = w.length then some (some w) else none
    else trySelectGo cursor selLen rest

/-- Embedding of `game::try_select_word`. -/
def try_select_word (sel : SelectedChunk) (words : List Word)
    (word_offsets : List Nat) (dims : HexDumpPane) : Option (Option Word) :=
  trySelectGo (addrOf sel dims) sel.len (words.zip word_offsets)

/-- The pre-filler offsets block of `game::obfuscate_words`: for each word in
input order, bump every offset collected so far by that word's length and
prepend a fresh `0`. -/
def packOffsets (words : List Word) : List Nat :=
  words.foldl (fun acc w => 0 :: acc.map (· + w.length)) []

/-- One filler insertion of `obfuscate_words`: add `1` to every offset from
index `k` on (`for i in offsets_to_bump_start..offsets.len()`). -/
def bump : List Nat → Nat → List Nat
  | [], _ => []
  | o :: os, 0 => (o + 1) :: bump os 0
  | o :: os, k + 1 => o :: bump os k

/-- The word-insertion loop of `obfuscate_words`:
`string_builder.insert_str(offset, word)` for each zipped pair in input order.
`insert_str` panics when the offset exceeds the current length — modelled by
`none`. -/
def insertAll : List (Word × Nat) → Word → Option Word
  | [], s => some s
  | (w, o) :: rest, s =>
    if o ≤ s.length then insertAll rest (s.take o ++ w ++ s.drop o) else none

/-- Embedding of `game::obfuscate_words`.  The `usize` subtraction
`target_size - initial_length_from_words` panics when the target is too small
(`none`).  The rng stream is consumed exactly as in the source: one
`gen_range(0, offsets.len() + 1)` per filler character for the offset bumps
(raw values `rng 0 .. rng (R-1)`), then one
`gen_range('#' as usize, '.' as usize)` per filler character for the garbage
text (raw values `rng R .. rng (2R-1)`, characters in `['#', '.')`, i.e. code
points `35 + r % 11`). -/
def obfuscate_words (words : List Word) (target_size : Nat) (rng : Nat → Nat) :
    Option (Word × List Nat) :=
  let initial := (words.map List.length).sum
  if target_size < initial then none
  else
    let remaining := target_size - initial
    let offsets :=
      (List.range remaining).foldl
        (fun offs t => bump offs (genRange 0 (offs.length + 1) (rng t)))
        (packOffsets words)
    let garbage : Word :=
      (List.range remaining).map (fun t => Char.ofNat (genRange 35 46 (rng (remaining + t))))
    match insertAll (words.zip offsets) garbage with
    | none => none
    | some buf => some (buf, offsets)

/-- Embedding of `solver::KnownGuess`. -/
structure KnownGuess where
  word : Word
  char_count : Nat

/-- Embedding of `Vec::swap_remove(i)`: overwrite slot `i` with the last
element, then drop the last slot. -/
def swapRemove (l : List Word) (i : Nat) : List Word :=
  (l.set i (l.getLastD [])).dropLast

/-- The retain predicate of `solver::filter_matching_passwords`:
`matching_char_count_ignore_case(p, guess.word) == guess.char_count`. -/
def matchPred (guess : KnownGuess) (p : Word) : Bool :=
  matching_char_count_ignore_case p guess.word == guess.char_count

/-- The backwards removal loop of `solver::filter_matching_passwords`:
`for i in (0..passwords.len()).rev()`, `swap_remove(i)` on a mismatch.  The
counter argument is the number of indices still to visit (the next index
visited is `i - 1`). -/
def filterGo (guess : KnownGuess) : List Word → Nat → List Word
  | pwds, 0 => pwds
  | pwds, i + 1 =>
    if matchPred guess (pwds.getD i []) then filterGo guess pwds i
    else filterGo guess (swapRemove pwds i) i

/-- Embedding of `solver::filter_matching_passwords`. -/
def filter_matching_passwords (guess : KnownGuess) (passwords : List Word) :
    List Word :=
  filterGo guess passwords passwords.length

/-- Decidable non-overlap check on a zipped `(word, offset)` list: the ranges
`[offset, offset + len)` of any two entries are disjoint. -/
def nonOverlappingB : List (Word × Nat) → Bool
  | [] => true
  | p :: rest =>
    (rest.all fun q => p.2 + p.1.length ≤ q.2 || q.2 + q.1.length ≤ p.2) &&
      nonOverlappingB rest

/-- Modelled from the spec (claim C4's wording of refit, on an explicit
address and pair list): locate the first `(word, offset)` pair whose range
`[offset, offset + len)` contains the address with `List.find?`; with
`intra = address - offset`, subtract `intra` from the column when
`intra ≤ column`, otherwise decrement the row (wrapping the row to
`pane_height - 1` and decrementing the pane when the row was 0) and add
`pane_width - intra` to the column; set the length to the word's length.  When
no range contains the address the state is returned unchanged. -/
def refit_specGo (dims : HexDumpPane) (cursor : Nat) (sel : SelectedChunk)
    (pairs : List (Word × Nat)) : SelectedChunk :=
  match pairs.find?
      (fun p => decide (p.2 ≤ cursor) && decide (cursor < p.2 + p.1.length)) with
  | none => sel
  | some (w, o) =>
    let intra := cursor - o
    if intra ≤ sel.col_start then
      { sel with col_start := sel.col_start - intra, len := w.length }
    else if sel.row_num = 0 then
      { pane_num := sel.pane_num - 1, row_num := dims.dump_height - 1,
        col_start := sel.col_start + (dims.dump_width - intra), len := w.length }
    else
      { sel with row_num := sel.row_num - 1,
                 col_start := sel.col_start + (dims.dump_width - intra),
                 len := w.length }

/-- Modelled from the spec (claim C4's wording of refit): compute the linear
address and apply the described correction for the first containing range.
This is the spec-side description to be compared with `refit_selection`. -/
def refit_spec (sel : SelectedChunk) (words : List Word)
    (word_offsets : List Nat) (dims : HexDumpPane) : SelectedChunk :=
  refit_specGo dims (addrOf sel dims) sel (words.zip word_offsets)

/-- Invariant carried through the filler-offset bump loop of
`obfuscate_words` when all words share length `L`: after `t` bumps the `n`
offsets are each at most `t` above their packed position `i * L`, and
consecutive offsets stay at least `L` apart. -/
def OffsInv (n L t : Nat) (offs : List Nat) : Prop :=
  offs.length = n ∧
    (∀ i, i < n → offs.getD i 0 ≤ i * L + t) ∧
    (∀ i, i + 1 < n → offs.getD i 0 + L ≤ offs.getD (i + 1) 0)

/-! ### Properties of the hamming-distance-ranked iterator -/

theorem scanRest_eq_filter (cmp : Word) (d : Nat) (l : List Word) :
    scanRest cmp d l
      = (l.filter (fun w => hamming_dist_ignore_case w cmp == d)).map
          (fun w => (w, d)) := by
  induction l with
  | nil => rfl
  | cons w rest ih =>
    by_cases h : hamming_dist_ignore_case w cmp = d
    · simp [scanRest, h, List.filter_cons, ih]
    · simp [scanRest, h, List.filter_cons, ih]

theorem mem_scanLevels (cmp : Word) (set : List Word) :
    ∀ (lv d : Nat) (p : Word × Nat), p ∈ scanLevels cmp set lv d →
      d ≤ p.2 ∧ p.2 < d + lv ∧ p.2 = hamming_dist_ignore_case p.1 cmp ∧
        p.1 ∈ set := by
  intro lv
  induction lv with
  | zero => intro d p hp; simp [scanLevels] at hp
  | succ lv ih =>
    intro d p hp
    rw [scanLevels, List.mem_append] at hp
    rcases hp with hp | hp
    · rw [scanRest_eq_filter] at hp
      rcases List.mem_map.1 hp with ⟨w, hw, hwp⟩
      rcases List.mem_filter.1 hw with ⟨hws, hwd⟩
      have hd : hamming_dist_ignore_case w cmp = d := by
        exact Nat.beq_eq_true_eq _ _ ▸ hwd
      subst hwp
      exact ⟨le_refl d, by omega, hd.symm, hws⟩
    · obtain ⟨h1, h2, h3, h4⟩ := ih (d + 1) p hp
      exact ⟨by omega, by omega, h3, h4⟩

theorem pairwise_scanLevels (cmp : Word) (set : List Word) :
    ∀ (lv d : Nat),
      List.Pairwise (fun p q : Word × Nat => p.2 ≤ q.2)
        (scanLevels cmp set lv d) := by
  intro lv
  induction lv with
  | zero => intro d; simp [scanLevels]
  | succ lv ih =>
    intro d
    rw [scanLevels, List.pairwise_append]
    refine ⟨?_, ih (d + 1), ?_⟩
    · rw [scanRest_eq_filter, List.pairwise_map]
      exact List.Pairwise.imp (fun _ => le_refl d)
        (List.pairwise_of_forall_mem_list (fun _ _ _ _ => trivial) :
          List.Pairwise (fun _ _ => True) _)
    · intro p hp q hq
      rw [scanRest_eq_filter] at hp
      rcases List.mem_map.1 hp with ⟨w, _, hwp⟩
      have hq2 := (mem_scanLevels cmp set lv (d + 1) q hq).1
      subst hwp
      simpa using by omega

theorem filter_scanLevels (cmp : Word) (set : List Word) :
    ∀ (lv d d0 : Nat), d ≤ d0 → d0 < d + lv →
      (scanLevels cmp set lv d).filter (fun p => p.2 == d0)
        = (set.filter (fun w => hamming_dist_ignore_case w cmp == d0)).map
            (fun w => (w, d0)) := by
  intro lv
  induction lv with
  | zero => intro d d0 h1 h2; omega
  | succ lv ih =>
    intro d d0 h1 h2
    rw [scanLevels, List.filter_append]
    by_cases hd : d0 = d
    · subst hd
      have hleft : (scanRest cmp d0 set).filter (fun p => p.2 == d0)
          = scanRest cmp d0 set := by
        rw [List.filter_eq_self]
        intro p hp
        rw [scanRest_eq_filter] at hp
        rcases List.mem_map.1 hp with ⟨w, _, hwp⟩
        subst hwp; simp
      have hright : (scanLevels cmp set lv (d0 + 1)).filter (fun p => p.2 == d0)
          = [] := by
        rw [List.filter_eq_nil_iff]
        intro p hp
        have := (mem_scanLevels cmp set lv (d0 + 1) p hp).1
        simp only [beq_iff_eq]
        omega
      rw [hleft, hright, scanRest_eq_filter, List.append_nil]
    · have hleft : (scanRest cmp d set).filter (fun p => p.2 == d0) = [] := by
        rw [List.filter_eq_nil_iff]
        intro p hp
        rw [scanRest_eq_filter] at hp
        rcases List.mem_map.1 hp with ⟨w, _, hwp⟩
        subst hwp
        simp only [beq_iff_eq]
        omega
      rw [hleft, List.nil_append]
      exact ih (d + 1) d0 (by omega) (by omega)

/-- C2: the ranked stream produced by `get_hamming_distance_sorted_words` on a
chunk of word length `L` and a reference of length `L` has non-decreasing
distances; every emitted pair carries a distance in `[1, L]` that really is
the case-insensitive Hamming distance to the reference (so no distance-0 pair
— the reference or a case-insensitive duplicate — is ever produced); for each
distance value `d` in `[1, L]` the emitted pairs of distance `d` are exactly
the chunk members at distance `d`, in original chunk order, each exactly once;
and on reference "pens" with chunk
[adds, pans, pils, dull, pens, pins, pent, miss] the full output is
[(pans,1), (pins,1), (pent,1), (pils,2), (adds,3), (miss,3), (dull,4)]. -/
theorem C2_hamming_ranked_contract (chunk : EnglishDictChunk) (cmp : Word)
    (hlen : ∀ w ∈ chunk.word_set, w.length = chunk.word_len)
    (hcmp : cmp.length = chunk.word_len) :
    List.Pairwise (fun p q : Word × Nat => p.2 ≤ q.2)
        (get_hamming_distance_sorted_words chunk cmp) ∧
      (∀ p ∈ get_hamming_distance_sorted_words chunk cmp,
        1 ≤ p.2 ∧ p.2 ≤ chunk.word_len ∧
          p.2 = hamming_dist_ignore_case p.1 cmp ∧ p.1 ∈ chunk.word_set) ∧
      (∀ d, 1 ≤ d → d ≤ chunk.word_len →
        (get_hamming_distance_sorted_words chunk cmp).filter
            (fun p => p.2 == d)
          = (chunk.word_set.filter
              (fun w => hamming_dist_ignore_case w cmp == d)).map
              (fun w => (w, d))) ∧
      get_hamming_distance_sorted_words
          ⟨4, ["adds", "pans", "pils", "dull", "pens", "pins", "pent",
               "miss"].map String.toList⟩ "pens".toList
        = [("pans".toList, 1), ("pins".toList, 1), ("pent".toList, 1),
           ("pils".toList, 2), ("adds".toList, 3), ("miss".toList, 3),
           ("dull".toList, 4)] := by
  refine ⟨pairwise_scanLevels cmp chunk.word_set chunk.word_len 1, ?_, ?_, ?_⟩
  · intro p hp
    obtain ⟨h1, h2, h3, h4⟩ :=
      mem_scanLevels cmp chunk.word_set chunk.word_len 1 p hp
    exact ⟨h1, by omega, h3, h4⟩
  · intro d hd1 hd2
    exact filter_scanLevels cmp chunk.word_set chunk.word_len 1 d hd1 (by omega)
  · decide

/-- Witness for C2 at the scenario-A chunk and reference. -/
theorem C2_hamming_ranked_witness :
    List.Pairwise (fun p q : Word × Nat => p.2 ≤ q.2)
      (get_hamming_distance_sorted_words
        ⟨4, ["adds", "pans", "pils", "dull", "pens", "pins", "pent",
             "miss"].map String.toList⟩ "pens".toList) :=
  (C2_hamming_ranked_contract
    ⟨4, ["adds", "pans", "pils", "dull", "pens", "pins", "pent",
         "miss"].map String.toList⟩ "pens".toList
    (by decide) (by decide)).1

/-! ### Properties of the tier-filling decoy generation -/

theorem fillTiers_sound (f : Word → Nat) :
    ∀ (stream : List (Word × Nat)) (tiers : List HDDEntry) (ds : List Word),
      (∀ p ∈ stream, p.2 = f p.1) →
      fillTiers stream tiers = some ds →
      ds.length = sumCounts tiers ∧
        ∀ i, i < ds.length → tierMinAt tiers i ≤ f (ds.getD i []) := by
  intro stream
  induction stream with
  | nil =>
    intro tiers ds _ hf
    cases tiers with
    | nil =>
      simp only [fillTiers, Option.some.injEq] at hf
      subst hf
      exact ⟨rfl, by intro i hi; simp at hi⟩
    | cons e ts => simp [fillTiers] at hf
  | cons p rest ih =>
    intro tiers ds hs hf
    obtain ⟨w, d⟩ := p
    cases tiers with
    | nil =>
      simp only [fillTiers, Option.some.injEq] at hf
      subst hf
      exact ⟨rfl, by intro i hi; simp at hi⟩
    | cons e ts =>
      have hsrest : ∀ q ∈ rest, q.2 = f q.1 := fun q hq => hs q (by simp [hq])
      have hwd : d = f w := hs (w, d) (by simp)
      rw [fillTiers] at hf
      by_cases h0 : e.num_words = 0
      · simp [h0] at hf
      · rw [if_neg h0] at hf
        by_cases hacc : e.hamming_distance ≤ d
        · rw [if_pos hacc] at hf
          by_cases h1 : e.num_words = 1
          · rw [if_pos h1] at hf
            rcases Option.map_eq_some'.1 hf with ⟨ds', hds', rfl⟩
            obtain ⟨hlen, hmin⟩ := ih ts ds' hsrest hds'
            constructor
            · simp [sumCounts, hlen, h1, List.length_cons]
              omega
            · intro i hi
              cases i with
              | zero =>
                simp only [List.getD_cons_zero, tierMinAt, h1]
                rw [if_pos (by omega)]
                omega
              | succ i =>
                simp only [List.getD_cons_succ, tierMinAt, h1]
                rw [if_neg (by omega)]
                have := hmin i (by simpa using hi)
                simpa [h1] using this
          · rw [if_neg h1] at hf
            rcases Option.map_eq_some'.1 hf with ⟨ds', hds', rfl⟩
            obtain ⟨hlen, hmin⟩ :=
              ih ({ num_words := e.num_words - 1,
                    hamming_distance := e.hamming_distance } :: ts) ds'
                hsrest hds'
            constructor
            · simp only [sumCounts, List.map_cons, List.sum_cons] at hlen ⊢
              simp only [List.length_cons, hlen]
              omega
            · intro i hi
              cases i with
              | zero =>
                simp only [List.getD_cons_zero, tierMinAt]
                rw [if_pos (by omega)]
                omega
              | succ i =>
                have := hmin i (by simpa using hi)
                simp only [List.getD_cons_succ, tierMinAt] at this ⊢
                by_cases hlt : i < e.num_words - 1
                · rw [if_pos hlt] at this
                  rw [if_pos (by omega)]
                  exact this
                · rw [if_neg hlt] at this
                  rw [if_neg (by omega)]
                  have harith : i + 1 - e.num_words = i - (e.num_words - 1) := by
                    omega
                  rw [harith]
                  exact this
        · rw [if_neg hacc] at hf
          exact ih (e :: ts) ds hsrest hf

/-- C3: whenever the single left-to-right walk of the ranked candidate stream
can satisfy every tier of the 4-tier profile (formalised: the tier loop
`fillTiers` succeeds on the stream produced for the selected goal word),
`generate_words` returns a list of exactly `1 + Σ tier counts` words whose
first element is the goal word and whose remaining elements are the accepted
decoys in tier order, each decoy's case-insensitive Hamming distance to the
goal being at least its assigned tier's minimum distance. -/
theorem C3_generate_words_tiers (chunk : EnglishDictChunk)
    (tiers : List HDDEntry) (rng : Nat → Nat) (ws : List Word) (goal : Word)
    (h4 : tiers.length = 4)
    (hgen : generate_words chunk tiers rng = some (ws, goal)) :
    ws.length = 1 + sumCounts tiers ∧ ws.getD 0 [] = goal ∧
      ∀ i, i < sumCounts tiers →
        tierMinAt tiers i ≤
          hamming_dist_ignore_case (ws.getD (i + 1) []) goal := by
  rw [generate_words] at hgen
  rcases hset : chunk.word_set with _ | ⟨w0, rest0⟩
  · rw [hset] at hgen; simp at hgen
  · rw [hset] at hgen
    simp only at hgen
    rcases hfill : fillTiers
        (get_hamming_distance_sorted_words chunk
          ((w0 :: rest0).getD (genRange 0 (w0 :: rest0).length (rng 0)) []))
        tiers with _ | ds
    · rw [← hset] at hfill
      rw [hset] at hfill
      rw [hfill] at hgen
      simp at hgen
    · rw [hfill] at hgen
      simp only [Option.some.injEq, Prod.mk.injEq] at hgen
      obtain ⟨hws, hgoal⟩ := hgen
      subst hws
      have hsound : ∀ p ∈ get_hamming_distance_sorted_words chunk
          ((w0 :: rest0).getD (genRange 0 (w0 :: rest0).length (rng 0)) []),
          p.2 = hamming_dist_ignore_case p.1
            ((w0 :: rest0).getD (genRange 0 (w0 :: rest0).length (rng 0)) []) := by
        intro p hp
        exact (mem_scanLevels _ chunk.word_set chunk.word_len 1 p hp).2.2.1
      obtain ⟨hlen, hmin⟩ :=
        fillTiers_sound
          (fun x => hamming_dist_ignore_case x
            ((w0 :: rest0).getD (genRange 0 (w0 :: rest0).length (rng 0)) []))
          _ tiers ds hsound hfill
      subst hgoal
      refine ⟨by simp only [List.length_cons, hlen]; omega, by simp, ?_⟩
      intro i hi
      have := hmin i (by omega)
      simpa using this

/-- Witness for C3 at the scenario-B chunk, profile and mocked rng. -/
theorem C3_generate_words_witness :
    (["dude", "dede", "dodo", "rube", "door", "doom", "abba", "sick", "stop",
        "soil", "roll"].map String.toList).length
        = 1 + sumCounts [⟨1, 1⟩, ⟨2, 2⟩, ⟨3, 3⟩, ⟨4, 4⟩] ∧
      (["dude", "dede", "dodo", "rube", "door", "doom", "abba", "sick", "stop",
          "soil", "roll"].map String.toList).getD 0 [] = "dude".toList ∧
      ∀ i, i < sumCounts [⟨1, 1⟩, ⟨2, 2⟩, ⟨3, 3⟩, ⟨4, 4⟩] →
        tierMinAt [⟨1, 1⟩, ⟨2, 2⟩, ⟨3, 3⟩, ⟨4, 4⟩] i ≤
          hamming_dist_ignore_case
            ((["dude", "dede", "dodo", "rube", "door", "doom", "abba", "sick",
                "stop", "soil", "roll"].map String.toList).getD (i + 1) [])
            "dude".toList :=
  C3_generate_words_tiers
    ⟨4, ["dude", "dede", "door", "dodo", "doom", "abba", "rude", "duds",
         "rube", "cube", "sick", "stop", "soil", "roll"].map String.toList⟩
    [⟨1, 1⟩, ⟨2, 2⟩, ⟨3, 3⟩, ⟨4, 4⟩] (fun _ => 0)
    (["dude", "dede", "dodo", "rube", "door", "doom", "abba", "sick", "stop",
       "soil", "roll"].map String.toList) "dude".toList
    (by decide) (by decide)

/-! ### Properties of the solver filter -/

theorem getLastD_stable (t : List Word) (d e : Word) (h : t ≠ []) :
    t.getLastD d = t.getLastD e := by
  cases hx : t.getLast? with
  | none => exact absurd (List.getLast?_eq_none_iff.1 hx) h
  | some x => simp [List.getLastD_eq_getLast?, hx]

theorem rot_perm : ∀ (m : List Word) (d : Word), m ≠ [] →
    List.Perm (m.getLastD d :: m.dropLast) m := by
  intro m
  induction m with
  | nil => intro d h; exact absurd rfl h
  | cons a t ih =>
    intro d _
    cases t with
    | nil => simp
    | cons b t' =>
      have h1 : (a :: b :: t').getLastD d = (b :: t').getLastD d := by
        rw [List.getLastD_cons, getLastD_stable (b :: t') a d (by simp)]
      have h2 : (a :: b :: t').dropLast = a :: (b :: t').dropLast := by
        simp
      rw [h1, h2]
      exact (List.Perm.swap a ((b :: t').getLastD d) ((b :: t').dropLast)).trans
        (List.Perm.cons a (ih d (by simp)))

theorem getLastD_drop : ∀ (l : List Word) (k : Nat) (d : Word),
    l.drop k ≠ [] → (l.drop k).getLastD d = l.getLastD d := by
  intro l
  induction l with
  | nil => intro k d h; simp at h
  | cons a t ih =>
    intro k d h
    cases k with
    | zero => rfl
    | succ k =>
      rw [List.drop_succ_cons] at h ⊢
      have ht : t ≠ [] := by
        intro ht; rw [ht] at h; simp at h
      rw [ih k d h, List.getLastD_cons, getLastD_stable t a d ht]

theorem swapRemove_eq : ∀ (l : List Word) (i : Nat), i < l.length →
    swapRemove l i = l.take i ++ (l.getLastD [] :: l.drop (i + 1)).dropLast := by
  intro l
  induction l with
  | nil => intro i h; simp at h
  | cons a t ih =>
    intro i h
    cases i with
    | zero => simp [swapRemove]
    | succ i =>
      have hi : i < t.length := by simpa using h
      have ht : t ≠ [] := by
        intro ht; rw [ht] at hi; simp at hi
      have hset : t.set i (t.getLastD []) ≠ [] := by
        have hl : (t.set i (t.getLastD [])).length = t.length := by simp
        intro hcon
        rw [hcon] at hl
        simp at hl
        omega
      have hlastD : (a :: t).getLastD [] = t.getLastD [] := by
        rw [List.getLastD_cons, getLastD_stable t a [] ht]
      rw [swapRemove, hlastD, List.set_cons_succ,
        List.dropLast_cons_of_ne_nil hset]
      have hstep := ih i hi
      rw [swapRemove] at hstep
      rw [hstep]
      simp [List.take_succ_cons, List.drop_succ_cons, hlastD]

theorem swapRemove_length (l : List Word) (i : Nat) (h : i < l.length) :
    (swapRemove l i).length = l.length - 1 := by
  simp [swapRemove]

theorem take_swapRemove (l : List Word) (i : Nat) (h : i < l.length) :
    (swapRemove l i).take i = l.take i := by
  rw [swapRemove_eq l i h]
  have hlen : (l.take i).length = i := by
    simp
    omega
  rw [List.take_append_eq_append_take, hlen]
  simp

theorem drop_swapRemove_perm (l : List Word) (i : Nat) (h : i < l.length) :
    List.Perm ((swapRemove l i).drop i) (l.drop (i + 1)) := by
  rw [swapRemove_eq l i h]
  have hlen : (l.take i).length = i := by
    simp
    omega
  rw [List.drop_append_eq_append_drop, hlen]
  simp only [Nat.sub_self, List.drop_zero]
  have hd0 : (l.take i).drop i = [] := by
    apply List.drop_eq_nil_of_le
    omega
  rw [hd0, List.nil_append]
  cases hd : l.drop (i + 1) with
  | nil => simp
  | cons b t' =>
    have hne : l.drop (i + 1) ≠ [] := by rw [hd]; simp
    have hg : l.getLastD [] = (l.drop (i + 1)).getLastD [] :=
      (getLastD_drop l (i + 1) [] hne).symm
    rw [← hd, hg, List.dropLast_cons_of_ne_nil hne]
    exact rot_perm (l.drop (i + 1)) [] hne

theorem filterGo_perm (g : KnownGuess) :
    ∀ (i : Nat) (pwds : List Word), i ≤ pwds.length →
      List.Perm (filterGo g pwds i)
        ((pwds.take i).filter (matchPred g) ++ pwds.drop i) := by
  intro i
  induction i with
  | zero => intro pwds _; simp [filterGo]
  | succ i ih =>
    intro pwds hle
    have hi : i < pwds.length := by omega
    have hgetD : pwds.getD i [] = pwds[i] := List.getD_eq_getElem pwds [] hi
    have hdrop : pwds.drop i = pwds.getD i [] :: pwds.drop (i + 1) := by
      rw [hgetD]
      exact List.drop_eq_getElem_cons hi
    have htake : pwds.take (i + 1) = pwds.take i ++ [pwds.getD i []] := by
      rw [List.take_succ, hgetD]
      simp [List.getElem?_eq_getElem hi]
    rw [filterGo]
    by_cases hp : matchPred g (pwds.getD i []) = true
    · rw [if_pos hp]
      rw [hgetD] at hp
      refine (ih pwds (by omega)).trans ?_
      rw [htake, List.filter_append, hdrop]
      simp [List.getElem?_eq_getElem hi, hgetD, hp]
    · rw [if_neg hp]
      rw [hgetD] at hp
      have hlen' : i ≤ (swapRemove pwds i).length := by
        rw [swapRemove_length pwds i hi]; omega
      refine (ih (swapRemove pwds i) hlen').trans ?_
      rw [take_swapRemove pwds i hi]
      refine (List.Perm.append_left _ (drop_swapRemove_perm pwds i hi)).trans ?_
      rw [htake, List.filter_append]
      simp [List.getElem?_eq_getElem hi, hp]

theorem filter_matching_perm (g : KnownGuess) (pwds : List Word) :
    List.Perm (filter_matching_passwords g pwds) (pwds.filter (matchPred g)) := by
  have hstep := filterGo_perm g pwds.length pwds (le_refl _)
  rw [List.take_length, List.drop_length, List.append_nil] at hstep
  exact hstep

theorem filterGo_all_match (g : KnownGuess) :
    ∀ (i : Nat) (pwds : List Word),
      (∀ j, j < i → matchPred g (pwds.getD j []) = true) →
      filterGo g pwds i = pwds := by
  intro i
  induction i with
  | zero => intro pwds _; rfl
  | succ i ih =>
    intro pwds hall
    rw [filterGo, if_pos (hall i (by omega))]
    exact ih pwds (fun j hj => hall j (by omega))

theorem mem_filter_matching (g : KnownGuess) (pwds : List Word) (p : Word) :
    p ∈ filter_matching_passwords g pwds ↔
      p ∈ pwds ∧ matchPred g p = true := by
  rw [(filter_matching_perm g pwds).mem_iff, List.mem_filter]

/-- C5 (amended): `filter_matching_passwords` retains exactly the candidates
whose case-insensitive matching character count with the guess word equals the
guess's count — as a multiset (permutation of the order-preserving filter):
every retained element satisfies the equation, every dropped element violates
it — but the retained elements are not, in general, returned in their input
order (the `swap_remove` loop reorders them).  The scenario-C instance
(candidates [apple, bppef, elppa], guess (apple, 2) → [bppef]) holds as
stated. -/
theorem C5_filter_multiset (guess : KnownGuess) (passwords : List Word)
    (hlen : ∀ p ∈ passwords, p.length = guess.word.length) :
    List.Perm (filter_matching_passwords guess passwords)
        (passwords.filter (matchPred guess)) ∧
      (∀ p ∈ filter_matching_passwords guess passwords,
        matching_char_count_ignore_case p guess.word = guess.char_count) ∧
      (∀ p ∈ passwords,
        matching_char_count_ignore_case p guess.word = guess.char_count →
          p ∈ filter_matching_passwords guess passwords) ∧
      filter_matching_passwords ⟨"apple".toList, 2⟩
          (["apple", "bppef", "elppa"].map String.toList)
        = ["bppef".toList] := by
  refine ⟨filter_matching_perm guess passwords, ?_, ?_, by decide⟩
  · intro p hp
    have := ((mem_filter_matching guess passwords p).1 hp).2
    simpa [matchPred] using this
  · intro p hp hcount
    exact (mem_filter_matching guess passwords p).2
      ⟨hp, by simpa [matchPred] using hcount⟩

/-- Counterexample for C5 as stated: on candidates [aa, ab, ba, bb] with the
guess (aa, 1) the retained candidates are ab and ba (in that input order), but
the `swap_remove` loop returns them as [ba, ab], so the output differs from
the order-preserving filter that the claim describes. -/
theorem C5_filter_order_counterexample :
    filter_matching_passwords ⟨"aa".toList, 1⟩
        (["aa", "ab", "ba", "bb"].map String.toList)
      = ["ba", "ab"].map String.toList ∧
    filter_matching_passwords ⟨"aa".toList, 1⟩
        (["aa", "ab", "ba", "bb"].map String.toList)
      ≠ (["aa", "ab", "ba", "bb"].map String.toList).filter
          (matchPred ⟨"aa".toList, 1⟩) := by
  constructor
  · decide
  · decide

/-- Witness for C5 at the scenario-C candidates and guess. -/
theorem C5_filter_witness :
    List.Perm
      (filter_matching_passwords ⟨"apple".toList, 2⟩
        (["apple", "bppef", "elppa"].map String.toList))
      ((["apple", "bppef", "elppa"].map String.toList).filter
        (matchPred ⟨"apple".toList, 2⟩)) :=
  (C5_filter_multiset ⟨"apple".toList, 2⟩
    (["apple", "bppef", "elppa"].map String.toList) (by decide)).1

/-- C8: reapplying `filter_matching_passwords` with the same guess returns the
candidate list unchanged (idempotence, as exact list equality), and filtering
with two guesses in either order yields the same final candidate collection
(equal as multisets, hence as sets). -/
theorem C8_filter_idempotent_commutative (g g1 g2 : KnownGuess)
    (pwds : List Word)
    (hg : ∀ p ∈ pwds, p.length = g.word.length)
    (h1 : ∀ p ∈ pwds, p.length = g1.word.length)
    (h2 : ∀ p ∈ pwds, p.length = g2.word.length) :
    filter_matching_passwords g (filter_matching_passwords g pwds)
        = filter_matching_passwords g pwds ∧
      List.Perm
        (filter_matching_passwords g2 (filter_matching_passwords g1 pwds))
        (filter_matching_passwords g1 (filter_matching_passwords g2 pwds)) := by
  constructor
  · apply filterGo_all_match
    intro j hj
    have hmem : (filter_matching_passwords g pwds).getD j []
        ∈ filter_matching_passwords g pwds := by
      rw [List.getD_eq_getElem _ _ hj]
      exact List.getElem_mem hj
    exact ((mem_filter_matching g pwds _).1 hmem).2
  · have c1 : List.Perm
        (filter_matching_passwords g2 (filter_matching_passwords g1 pwds))
        ((pwds.filter (matchPred g1)).filter (matchPred g2)) :=
      (filter_matching_perm g2 _).trans
        ((filter_matching_perm g1 pwds).filter (matchPred g2))
    have c2 : List.Perm
        (filter_matching_passwords g1 (filter_matching_passwords g2 pwds))
        ((pwds.filter (matchPred g2)).filter (matchPred g1)) :=
      (filter_matching_perm g1 _).trans
        ((filter_matching_perm g2 pwds).filter (matchPred g1))
    have hcomm : (pwds.filter (matchPred g1)).filter (matchPred g2)
        = (pwds.filter (matchPred g2)).filter (matchPred g1) := by
      rw [List.filter_filter, List.filter_filter]
      apply List.filter_congr
      intro x _
      exact Bool.and_comm _ _
    exact (c1.trans (hcomm ▸ List.Perm.refl _)).trans c2.symm

/-- Witness for C8 at a concrete guess pair and candidate list. -/
theorem C8_filter_witness :
    filter_matching_passwords ⟨"aa".toList, 1⟩
        (filter_matching_passwords ⟨"aa".toList, 1⟩
          (["aa", "ab", "ba", "bb"].map String.toList))
      = filter_matching_passwords ⟨"aa".toList, 1⟩
          (["aa", "ab", "ba", "bb"].map String.toList) :=
  (C8_filter_idempotent_commutative ⟨"aa".toList, 1⟩ ⟨"ab".toList, 2⟩
    ⟨"bb".toList, 0⟩ (["aa", "ab", "ba", "bb"].map String.toList)
    (by decide) (by decide) (by decide)).1

/-! ### Properties of cursor movement -/

/-- C6: on a state satisfying the grid invariants in the two-pane layout,
`move_selection` always returns a state of length exactly 1 in which Up and
Down only change the row, wrapping vertically, with pane and column unchanged;
Left subtracts 1 from the column and Right adds the current selection length;
a column that would go below 0 becomes `pane_width - 1` with the pane
decremented and a column at or past `pane_width` becomes 0 with the pane
incremented; a pane at or past `pane_count` wraps to 0 and a pane below 0
wraps to the hard-coded pane index 1. -/
theorem C6_move_selection_contract (sel : SelectedChunk) (dims : HexDumpPane)
    (hcol : sel.col_start < dims.dump_width)
    (hrow : sel.row_num < dims.dump_height)
    (hpane : sel.pane_num < 2) (hlen : 1 ≤ sel.len) :
    (move_selection sel Movement.Up dims 2
        = { pane_num := sel.pane_num,
            row_num :=
              if sel.row_num = 0 then dims.dump_height - 1 else sel.row_num - 1,
            col_start := sel.col_start, len := 1 }) ∧
      (move_selection sel Movement.Down dims 2
        = { pane_num := sel.pane_num,
            row_num :=
              if sel.row_num = dims.dump_height - 1 then 0 else sel.row_num + 1,
            col_start := sel.col_start, len := 1 }) ∧
      (move_selection sel Movement.Left dims 2
        = if sel.col_start = 0 then
            { pane_num := if sel.pane_num = 0 then 1 else sel.pane_num - 1,
              row_num := sel.row_num, col_start := dims.dump_width - 1,
              len := 1 }
          else
            { pane_num := sel.pane_num, row_num := sel.row_num,
              col_start := sel.col_start - 1, len := 1 }) ∧
      (move_selection sel Movement.Right dims 2
        = if dims.dump_width ≤ sel.col_start + sel.len then
            { pane_num := if sel.pane_num = 1 then 0 else sel.pane_num + 1,
              row_num := sel.row_num, col_start := 0, len := 1 }
          else
            { pane_num := sel.pane_num, row_num := sel.row_num,
              col_start := sel.col_start + sel.len, len := 1 }) := by
  obtain ⟨p, r, c, l⟩ := sel
  obtain ⟨W, H⟩ := dims
  simp only at hcol hrow hpane hlen
  refine ⟨?_, ?_, ?_, ?_⟩ <;>
    · simp only [move_selection]
      split_ifs <;>
        · simp only [SelectedChunk.mk.injEq]
          refine ⟨by omega, by omega, by omega, by trivial⟩

/-- Witness for C6 at a concrete in-invariant state and the game's pane
geometry. -/
theorem C6_move_selection_witness :
    move_selection ⟨0, 0, 0, 1⟩ Movement.Up ⟨12, 16⟩ 2
      = { pane_num := 0,
          row_num := if (0 : Nat) = 0 then 16 - 1 else 0 - 1,
          col_start := 0, len := 1 } :=
  (C6_move_selection_contract ⟨0, 0, 0, 1⟩ ⟨12, 16⟩ (by decide) (by decide)
    (by decide) (by decide)).1

/-! ### Properties of refit and selection -/

theorem refitGo_spec (dims : HexDumpPane) (sel : SelectedChunk)
    (hcol : sel.col_start < dims.dump_width) :
    ∀ pairs : List (Word × Nat),
      (∀ p ∈ pairs, p.1.length ≤ dims.dump_width) →
      ∃ s', refitGo dims (addrOf sel dims) sel pairs = some s' ∧
        s' = refit_specGo dims (addrOf sel dims) sel pairs ∧
        s'.col_start < dims.dump_width ∧
        (sel.pane_num = 0 → sel.row_num = 0 →
          s'.pane_num = 0 ∧ s'.row_num = 0) := by
  intro pairs
  induction pairs with
  | nil =>
    intro _
    exact ⟨sel, rfl, rfl, hcol, fun h1 h2 => ⟨h1, h2⟩⟩
  | cons q rest ih =>
    intro hw
    obtain ⟨w, o⟩ := q
    by_cases hc : o ≤ addrOf sel dims ∧ addrOf sel dims < o + w.length
    · have hwlen : w.length ≤ dims.dump_width := hw (w, o) (by simp)
      have hfind : ((w, o) :: rest).find?
            (fun p => decide (p.2 ≤ addrOf sel dims) &&
              decide (addrOf sel dims < p.2 + p.1.length))
          = some (w, o) :=
        List.find?_cons_of_pos _ (by simp [hc.1, hc.2])
      have hintra : addrOf sel dims - o < w.length := by omega
      by_cases h1 : addrOf sel dims - o ≤ sel.col_start
      · refine ⟨{ sel with
                  col_start := sel.col_start - (addrOf sel dims - o)
                  len := w.length }, ?_, ?_, ?_, ?_⟩
        · simp only [refitGo]
          rw [if_pos hc, if_pos h1]
        · simp only [refit_specGo, hfind]
          rw [if_pos h1]
        · simp only
          omega
        · intro hp hr
          exact ⟨hp, hr⟩
      · have h2 : ¬ dims.dump_width < addrOf sel dims - o := by omega
        by_cases hr : 0 < sel.row_num
        · refine ⟨{ sel with
                    row_num := sel.row_num - 1
                    col_start :=
                      sel.col_start + (dims.dump_width - (addrOf sel dims - o))
                    len := w.length }, ?_, ?_, ?_, ?_⟩
          · simp only [refitGo]
            rw [if_pos hc, if_neg h1, if_neg h2, if_pos hr]
          · simp only [refit_specGo, hfind]
            rw [if_neg h1, if_neg (by omega : ¬ sel.row_num = 0)]
          · simp only
            omega
          · intro hp hrow0
            omega
        · have hrow0 : sel.row_num = 0 := by omega
          have hpane0 : ¬ sel.pane_num = 0 := by
            intro hp0
            have haddr : addrOf sel dims = sel.col_start := by
              simp [addrOf, max_bytes_in_pane, hp0, hrow0]
            omega
          refine ⟨{ pane_num := sel.pane_num - 1
                    row_num := dims.dump_height - 1
                    col_start :=
                      sel.col_start + (dims.dump_width - (addrOf sel dims - o))
                    len := w.length }, ?_, ?_, ?_, ?_⟩
          · simp only [refitGo]
            rw [if_pos hc, if_neg h1, if_neg h2, if_neg hr, if_neg hpane0]
          · simp only [refit_specGo, hfind]
            rw [if_neg h1, if_pos hrow0]
          · simp only
            omega
          · intro hp _
            exact absurd hp hpane0
    · have hb : (decide (o ≤ addrOf sel dims) &&
            decide (addrOf sel dims < o + w.length)) = false := by
        by_cases hA : o ≤ addrOf sel dims
        · by_cases hB : addrOf sel dims < o + w.length
          · exact absurd ⟨hA, hB⟩ hc
          · simp [hB]
        · simp [hA]
      have hrest : ∀ p ∈ rest, p.1.length ≤ dims.dump_width :=
        fun p hp => hw p (by simp [hp])
      obtain ⟨s', hgo, hspec, hcb, hpr⟩ := ih hrest
      refine ⟨s', ?_, ?_, hcb, hpr⟩
      · simp only [refitGo]
        rw [if_neg hc]
        exact hgo
      · rw [hspec]
        simp only [refit_specGo]
        rw [List.find?_cons_of_neg _ (by simp [hb])]

/-- C4 (amended): on a length-1 selection state satisfying the grid
invariants, a non-overlapping `(word, offset)` list whose words are no longer
than the pane width, and any pane geometry, `refit_selection` returns (without
aborting) exactly the state described by the spec's refit rule
(`refit_spec`): scan the pairs in order; for the first pair whose range
contains the linear address, snap the column left by `intra` when
`intra ≤ column`, otherwise move to the previous row (wrapping row and
decrementing pane when the row was 0) and add `pane_width - intra` to the
column, setting the length to the word's length; if no range contains the
address the state is returned unchanged.  The word-length bound is required:
without it the source underflows `pane_width - intra` (see the
counterexample). -/
theorem C4_refit_matches_spec (sel : SelectedChunk) (words : List Word)
    (word_offsets : List Nat) (dims : HexDumpPane) (num_panes : Nat)
    (hlen1 : sel.len = 1) (hcol : sel.col_start < dims.dump_width)
    (hrow : sel.row_num < dims.dump_height) (hpane : sel.pane_num < num_panes)
    (hov : nonOverlappingB (words.zip word_offsets) = true)
    (hwords : ∀ w ∈ words, w.length ≤ dims.dump_width) :
    refit_selection sel words word_offsets dims
      = some (refit_spec sel words word_offsets dims) := by
  have hpairs : ∀ p ∈ words.zip word_offsets, p.1.length ≤ dims.dump_width := by
    intro p hp
    obtain ⟨w, o⟩ := p
    exact hwords w (List.of_mem_zip hp).1
  obtain ⟨s', hgo, hspec, _, _⟩ := refitGo_spec dims sel hcol
    (words.zip word_offsets) hpairs
  rw [refit_selection, hgo, refit_spec, ← hspec]

/-- Counterexample for C4 as stated: the state (pane 0, row 2, column 1,
length 1) satisfies the invariants for a 2-wide, 3-tall pane, and the single
word "aaaaaa" at offset 0 is a non-overlapping list; the linear address is 5,
inside the word's range with `intra = 5`, and the claim describes a returned
state (row decremented, column increased by `pane_width - intra`, length 6) —
but `pane_width - intra = 2 - 5` underflows `usize`, so the code aborts
instead of returning any state. -/
theorem C4_refit_counterexample :
    refit_selection ⟨0, 2, 1, 1⟩ ["aaaaaa".toList] [0] ⟨2, 3⟩ = none := by
  decide

/-- Witness for C4 at a concrete snap-to-word-start input. -/
theorem C4_refit_witness :
    refit_selection ⟨0, 1, 1, 1⟩ ["abc".toList] [5] ⟨4, 3⟩
      = some (refit_spec ⟨0, 1, 1, 1⟩ ["abc".toList] [5] ⟨4, 3⟩) :=
  C4_refit_matches_spec ⟨0, 1, 1, 1⟩ ["abc".toList] [5] ⟨4, 3⟩ 2 rfl
    (by decide) (by decide) (by decide) (by decide) (by decide)

/-- C10: on any selection state satisfying the grid invariants and any word
list whose words are no longer than the pane width, `refit_selection` never
underflows its unsigned arithmetic (it returns a state rather than aborting),
the returned column stays below the pane width, and at pane 0, row 0 the
backward-row correction branch is unreachable (the result keeps pane 0, row
0), because there the linear address equals the column, so
`intra = address - offset ≤ column`. -/
theorem C10_refit_no_underflow (sel : SelectedChunk) (words : List Word)
    (word_offsets : List Nat) (dims : HexDumpPane) (num_panes : Nat)
    (hcol : sel.col_start < dims.dump_width)
    (hrow : sel.row_num < dims.dump_height) (hpane : sel.pane_num < num_panes)
    (hwords : ∀ w ∈ words, w.length ≤ dims.dump_width) :
    ∃ s', refit_selection sel words word_offsets dims = some s' ∧
      s'.col_start < dims.dump_width ∧
      (sel.pane_num = 0 → sel.row_num = 0 →
        s'.pane_num = 0 ∧ s'.row_num = 0) := by
  have hpairs : ∀ p ∈ words.zip word_offsets, p.1.length ≤ dims.dump_width := by
    intro p hp
    obtain ⟨w, o⟩ := p
    exact hwords w (List.of_mem_zip hp).1
  obtain ⟨s', hgo, _, hcb, hpr⟩ := refitGo_spec dims sel hcol
    (words.zip word_offsets) hpairs
  exact ⟨s', by rw [refit_selection, hgo], hcb, hpr⟩

/-- Witness for C10 at a concrete state with a word wider than one row but
not wider than the pane. -/
theorem C10_refit_witness :
    ∃ s', refit_selection ⟨1, 0, 1, 1⟩ ["abcd".toList] [22] ⟨4, 3⟩
        = some s' ∧
      s'.col_start < 4 ∧
      ((1 : Nat) = 0 → (0 : Nat) = 0 → s'.pane_num = 0 ∧ s'.row_num = 0) :=
  C10_refit_no_underflow ⟨1, 0, 1, 1⟩ ["abcd".toList] [22] ⟨4, 3⟩ 2
    (by decide) (by decide) (by decide) (by decide)

theorem trySelectGo_exact (cursor selLen : Nat) :
    ∀ (pairs : List (Word × Nat)) (w : Word),
      trySelectGo cursor selLen pairs = some (some w) →
      ∃ o, (w, o) ∈ pairs ∧ cursor = o ∧ selLen = w.length := by
  intro pairs
  induction pairs with
  | nil => intro w h; simp [trySelectGo] at h
  | cons q rest ih =>
    intro w h
    obtain ⟨w', o'⟩ := q
    rw [trySelectGo] at h
    by_cases hc : o' ≤ cursor ∧ cursor < o' + w'.length
    · rw [if_pos hc] at h
      by_cases hx : cursor = o' ∧ selLen = w'.length
      · rw [if_pos hx] at h
        simp only [Option.some.injEq] at h
        subst h
        exact ⟨o', by simp, hx.1, hx.2⟩
      · rw [if_neg hx] at h
        simp at h
    · rw [if_neg hc] at h
      obtain ⟨o, hmem, h1, h2⟩ := ih w h
      exact ⟨o, by simp [hmem], h1, h2⟩

theorem trySelectGo_no_hit (cursor selLen : Nat) :
    ∀ pairs : List (Word × Nat),
      (∀ p ∈ pairs, ¬ (p.2 ≤ cursor ∧ cursor < p.2 + p.1.length)) →
      trySelectGo cursor selLen pairs = some none := by
  intro pairs
  induction pairs with
  | nil => intro _; rfl
  | cons q rest ih =>
    intro hall
    obtain ⟨w', o'⟩ := q
    rw [trySelectGo, if_neg (hall (w', o') (by simp))]
    exact ih (fun p hp => hall p (by simp [hp]))

theorem trySelectGo_abort (cursor selLen : Nat) :
    ∀ (pairs : List (Word × Nat)) (w : Word) (o : Nat),
      pairs.find? (fun p => decide (p.2 ≤ cursor) &&
          decide (cursor < p.2 + p.1.length)) = some (w, o) →
      ¬ (cursor = o ∧ selLen = w.length) →
      trySelectGo cursor selLen pairs = none := by
  intro pairs
  induction pairs with
  | nil => intro w o h _; simp at h
  | cons q rest ih =>
    intro w o hfind hmis
    obtain ⟨w', o'⟩ := q
    by_cases hc : o' ≤ cursor ∧ cursor < o' + w'.length
    · have hfpos : List.find?
          (fun p => decide (p.2 ≤ cursor) && decide (cursor < p.2 + p.1.length))
          ((w', o') :: rest) = some (w', o') := by
        apply List.find?_cons_of_pos
        simp [hc.1, hc.2]
      rw [hfpos] at hfind
      simp only [Option.some.injEq, Prod.mk.injEq] at hfind
      obtain ⟨h1, h2⟩ := hfind
      subst h1
      subst h2
      rw [trySelectGo, if_pos hc, if_neg hmis]
    · have hfneg : List.find?
          (fun p => decide (p.2 ≤ cursor) && decide (cursor < p.2 + p.1.length))
          ((w', o') :: rest)
          = List.find?
            (fun p => decide (p.2 ≤ cursor) &&
              decide (cursor < p.2 + p.1.length)) rest := by
        apply List.find?_cons_of_neg
        simpa using hc
      rw [hfneg] at hfind
      rw [trySelectGo, if_neg hc]
      exact ih w o hfind hmis

/-- C9 (amended): a selection attempt returns a word only when the state's
linear address exactly equals that word's offset and the state's length
equals the word's length; when the address lies in no word's range the
attempt returns the normal "no selectable word here" outcome; but when the
address lies in a word's range without the exact offset-and-length match, the
code aborts with a failed assertion instead of returning the normal "no
selectable word" outcome. -/
theorem C9_select_exact_match (sel : SelectedChunk) (words : List Word)
    (word_offsets : List Nat) (dims : HexDumpPane)
    (hov : nonOverlappingB (words.zip word_offsets) = true) :
    (∀ w, try_select_word sel words word_offsets dims = some (some w) →
      ∃ o, (w, o) ∈ words.zip word_offsets ∧ addrOf sel dims = o ∧
        sel.len = w.length) ∧
      ((∀ p ∈ words.zip word_offsets,
          ¬ (p.2 ≤ addrOf sel dims ∧ addrOf sel dims < p.2 + p.1.length)) →
        try_select_word sel words word_offsets dims = some none) ∧
      (∀ w o, (words.zip word_offsets).find?
            (fun p => decide (p.2 ≤ addrOf sel dims) &&
              decide (addrOf sel dims < p.2 + p.1.length)) = some (w, o) →
        ¬ (addrOf sel dims = o ∧ sel.len = w.length) →
        try_select_word sel words word_offsets dims = none) := by
  refine ⟨?_, ?_, ?_⟩
  · intro w h
    exact trySelectGo_exact (addrOf sel dims) sel.len (words.zip word_offsets)
      w h
  · intro hall
    exact trySelectGo_no_hit (addrOf sel dims) sel.len
      (words.zip word_offsets) hall
  · intro w o hfind hmis
    exact trySelectGo_abort (addrOf sel dims) sel.len (words.zip word_offsets)
      w o hfind hmis

/-- Counterexample for C9 as stated: for word "abc" at offset 5 in a 4-wide,
3-tall pane, the state (pane 0, row 1, column 2, length 1) has linear address
6, strictly inside the word's range [5, 8) but not equal to its offset; the
claim says the attempt returns the normal "no selectable word here" outcome
(`some none`), but `assert_eq!(cursor_index, word_offset)` fails and the code
aborts (`none`). -/
theorem C9_select_counterexample :
    try_select_word ⟨0, 1, 2, 1⟩ ["abc".toList] [5] ⟨4, 3⟩ = none ∧
      try_select_word ⟨0, 1, 2, 1⟩ ["abc".toList] [5] ⟨4, 3⟩
        ≠ some none := by
  constructor
  · decide
  · decide

/-- Witness for C9 at a state whose address lies in no word range. -/
theorem C9_select_witness :
    try_select_word ⟨0, 0, 0, 1⟩ ["ab".toList] [5] ⟨4, 3⟩ = some none :=
  (C9_select_exact_match ⟨0, 0, 0, 1⟩ ["ab".toList] [5] ⟨4, 3⟩
    (by decide)).2.1 (by decide)

/-! ### Properties of obfuscation -/

theorem sum_const_len (L : Nat) :
    ∀ l : List Nat, (∀ x ∈ l, x = L) → l.sum = l.length * L := by
  intro l
  induction l with
  | nil => intro _; simp
  | cons a t ih =>
    intro h
    have ha : a = L := h a (by simp)
    have ht := ih (fun x hx => h x (by simp [hx]))
    simp only [List.sum_cons, List.length_cons, ht, ha]
    ring

theorem packFold_length :
    ∀ (ws : List Word) (acc : List Nat),
      (ws.foldl (fun acc w => 0 :: acc.map (· + w.length)) acc).length
        = acc.length + ws.length := by
  intro ws
  induction ws with
  | nil => intro acc; simp
  | cons w ws ih =>
    intro acc
    rw [List.foldl_cons, ih]
    simp
    omega

theorem packOffsets_length (words : List Word) :
    (packOffsets words).length = words.length := by
  rw [packOffsets, packFold_length]
  simp

theorem packOffsets_append_singleton (ws : List Word) (w : Word) :
    packOffsets (ws ++ [w]) = 0 :: (packOffsets ws).map (· + w.length) := by
  simp [packOffsets, List.foldl_append]

theorem packOffsets_getD (words : List Word) :
    ∀ i, i < words.length →
      (packOffsets words).getD i 0
        = ((words.reverse.take i).map List.length).sum := by
  induction words using List.reverseRecOn with
  | nil => intro i hi; simp at hi
  | append_singleton ws w ih =>
    intro i hi
    rw [packOffsets_append_singleton]
    cases i with
    | zero => simp
    | succ i =>
      have hi' : i < ws.length := by
        simp only [List.length_append, List.length_singleton] at hi
        omega
      have hi'' : i < ((packOffsets ws).map (· + w.length)).length := by
        simp [packOffsets_length]
        omega
      have hplen : i < (packOffsets ws).length := by
        rw [packOffsets_length]; exact hi'
      rw [List.getD_cons_succ, List.getD_eq_getElem _ _ hi'', List.getElem_map]
      have hgd : (packOffsets ws)[i] = (packOffsets ws).getD i 0 :=
        (List.getD_eq_getElem _ _ (by simp [packOffsets_length]; omega)).symm
      rw [hgd, ih i hi']
      have hrev : (ws ++ [w]).reverse = w :: ws.reverse := by
        simp
      rw [hrev, List.take_succ_cons, List.map_cons, List.sum_cons]
      omega

theorem packOffsets_getD_mul (words : List Word) (L : Nat)
    (hlen : ∀ w ∈ words, w.length = L) :
    ∀ i, i < words.length → (packOffsets words).getD i 0 = i * L := by
  intro i hi
  rw [packOffsets_getD words i hi]
  have hmem : ∀ x ∈ (words.reverse.take i).map List.length, x = L := by
    intro x hx
    rcases List.mem_map.1 hx with ⟨w, hw, rfl⟩
    exact hlen w (List.mem_reverse.1 (List.mem_of_mem_take hw))
  rw [sum_const_len L _ hmem]
  have hl : ((words.reverse.take i).map List.length).length = i := by
    simp
    omega
  rw [hl]

theorem bump_length : ∀ (l : List Nat) (k : Nat), (bump l k).length = l.length := by
  intro l
  induction l with
  | nil => intro k; cases k <;> rfl
  | cons o os ih =>
    intro k
    cases k with
    | zero => simp [bump, ih 0]
    | succ k => simp [bump, ih k]

theorem bump_getD : ∀ (l : List Nat) (k i : Nat), i < l.length →
    (bump l k).getD i 0 = l.getD i 0 + (if k ≤ i then 1 else 0) := by
  intro l
  induction l with
  | nil => intro k i h; simp at h
  | cons o os ih =>
    intro k i h
    cases k with
    | zero =>
      cases i with
      | zero => simp [bump]
      | succ i =>
        simp only [bump, List.getD_cons_succ]
        rw [ih 0 i (by simpa using h)]
        simp
    | succ k =>
      cases i with
      | zero => simp [bump]
      | succ i =>
        simp only [bump, List.getD_cons_succ]
        rw [ih k i (by simpa using h)]
        by_cases hk : k ≤ i
        · rw [if_pos hk, if_pos (by omega)]
        · rw [if_neg hk, if_neg (by omega)]

theorem OffsInv_bump (n L t k : Nat) (offs : List Nat) (h : OffsInv n L t offs) :
    OffsInv n L (t + 1) (bump offs k) := by
  obtain ⟨hl, hub, hch⟩ := h
  refine ⟨by rw [bump_length]; exact hl, ?_, ?_⟩
  · intro i hi
    rw [bump_getD offs k i (by omega)]
    have h1 := hub i hi
    by_cases hk : k ≤ i
    · rw [if_pos hk]; linarith
    · rw [if_neg hk]; linarith
  · intro i hi
    rw [bump_getD offs k i (by omega), bump_getD offs k (i + 1) (by omega)]
    have h1 := hch i hi
    by_cases hk1 : k ≤ i
    · rw [if_pos hk1, if_pos (by omega)]; linarith
    · by_cases hk2 : k ≤ i + 1
      · rw [if_neg hk1, if_pos hk2]; linarith
      · rw [if_neg hk1, if_neg hk2]; linarith

theorem OffsInv_fold (n L : Nat) (g : List Nat → Nat → Nat) :
    ∀ (ts : List Nat) (offs : List Nat) (t : Nat), OffsInv n L t offs →
      OffsInv n L (t + ts.length)
        (ts.foldl (fun o u => bump o (g o u)) offs) := by
  intro ts
  induction ts with
  | nil => intro offs t h; simpa using h
  | cons u ts ih =>
    intro offs t h
    rw [List.foldl_cons, List.length_cons]
    have h1 := OffsInv_bump n L t (g offs u) offs h
    have h2 := ih (bump offs (g offs u)) (t + 1) h1
    have harith : t + (ts.length + 1) = t + 1 + ts.length := by omega
    rw [harith]
    exact h2

theorem OffsInv_start (words : List Word) (L : Nat)
    (hlen : ∀ w ∈ words, w.length = L) :
    OffsInv words.length L 0 (packOffsets words) := by
  refine ⟨packOffsets_length words, ?_, ?_⟩
  · intro i hi
    rw [packOffsets_getD_mul words L hlen i hi]
    omega
  · intro i hi
    rw [packOffsets_getD_mul words L hlen i (by omega),
      packOffsets_getD_mul words L hlen (i + 1) hi, Nat.succ_mul]

theorem chainLB :
    ∀ (l : List (Word × Nat)) (p : Word × Nat),
      List.Chain' (fun a b : Word × Nat => a.2 + a.1.length ≤ b.2) (p :: l) →
      ∀ q ∈ l, p.2 + p.1.length ≤ q.2 := by
  intro l
  induction l with
  | nil => intro p _ q hq; simp at hq
  | cons r l ih =>
    intro p hch q hq
    have hpr : p.2 + p.1.length ≤ r.2 := (List.chain'_cons.1 hch).1
    rcases List.mem_cons.1 hq with rfl | hq'
    · exact hpr
    · have h2 := ih r (List.chain'_cons.1 hch).2 q hq'
      omega

theorem take_drop_slice :
    ∀ (l : List Char) (a b : Nat), (l.drop a).take b = (l.take (a + b)).drop a := by
  intro l
  induction l with
  | nil => intro a b; simp
  | cons x t ih =>
    intro a b
    cases a with
    | zero => simp
    | succ a =>
      rw [List.drop_succ_cons, Nat.succ_add, List.take_succ_cons,
        List.drop_succ_cons]
      exact ih a b

theorem slice_congr (s₁ s₂ : Word) (a b m : Nat) (h : s₁.take m = s₂.take m)
    (hab : a + b ≤ m) : (s₁.drop a).take b = (s₂.drop a).take b := by
  have hts : s₁.take (a + b) = s₂.take (a + b) := by
    have hcg := congrArg (fun l => List.take (a + b) l) h
    simpa [List.take_take, Nat.min_eq_left hab] using hcg
  rw [take_drop_slice s₁ a b, take_drop_slice s₂ a b, hts]

theorem insertAll_spec :
    ∀ (pairs : List (Word × Nat)) (s : Word),
      List.Chain' (fun a b : Word × Nat => a.2 + a.1.length ≤ b.2) pairs →
      (∀ j, j < pairs.length →
        (pairs.getD j ([], 0)).2
          ≤ s.length + ((pairs.take j).map (fun p => p.1.length)).sum) →
      ∃ out, insertAll pairs s = some out ∧
        out.length = s.length + (pairs.map (fun p => p.1.length)).sum ∧
        (∀ p ∈ pairs, (out.drop p.2).take p.1.length = p.1) ∧
        (∀ k, (∀ p ∈ pairs, k ≤ p.2) → out.take k = s.take k) := by
  intro pairs
  induction pairs with
  | nil =>
    intro s _ _
    exact ⟨s, rfl, by simp, by simp, fun k _ => rfl⟩
  | cons q rest ih =>
    intro s hch hpos
    obtain ⟨w, o⟩ := q
    have ho : o ≤ s.length := by
      have h0 := hpos 0 (by simp)
      simpa using h0
    have hs'len : (s.take o ++ w ++ s.drop o).length = s.length + w.length := by
      simp
      omega
    have hch' : List.Chain'
        (fun a b : Word × Nat => a.2 + a.1.length ≤ b.2) rest := hch.tail
    have hLB : ∀ q' ∈ rest, o + w.length ≤ q'.2 := chainLB rest (w, o) hch
    have hpos' : ∀ j, j < rest.length →
        (rest.getD j ([], 0)).2
          ≤ (s.take o ++ w ++ s.drop o).length
            + ((rest.take j).map (fun p => p.1.length)).sum := by
      intro j hj
      have h1 := hpos (j + 1) (by simp only [List.length_cons]; omega)
      rw [List.getD_cons_succ, List.take_succ_cons, List.map_cons,
        List.sum_cons] at h1
      have hfst : ((w, o) : Word × Nat).1.length = w.length := rfl
      rw [hfst] at h1
      rw [hs'len]
      omega
    obtain ⟨out, hins, hlen, hslice, hpref⟩ :=
      ih (s.take o ++ w ++ s.drop o) hch' hpos'
    refine ⟨out, ?_, ?_, ?_, ?_⟩
    · rw [insertAll, if_pos ho]
      exact hins
    · have hms : (((w, o) :: rest).map (fun p => p.1.length)).sum
          = w.length + (rest.map (fun p => p.1.length)).sum := by
        simp
      rw [hlen, hs'len, hms]
      omega
    · intro p hp
      rcases List.mem_cons.1 hp with rfl | hp'
      · have htk : out.take (o + w.length)
            = (s.take o ++ w ++ s.drop o).take (o + w.length) :=
          hpref (o + w.length) (fun q' hq' => hLB q' hq')
        have hsl : (out.drop o).take w.length
            = ((s.take o ++ w ++ s.drop o).drop o).take w.length :=
          slice_congr out (s.take o ++ w ++ s.drop o) o w.length
            (o + w.length) htk (le_refl _)
        rw [hsl]
        have htol : (s.take o).length = o := by
          simp
          omega
        have hdrop : (s.take o ++ w ++ s.drop o).drop o = w ++ s.drop o := by
          rw [List.append_assoc, List.drop_append_eq_append_drop, htol]
          simp [List.drop_eq_nil_of_le (le_of_eq htol)]
        rw [hdrop]
        have : (w ++ s.drop o).take w.length = w := List.take_left w (s.drop o)
        exact this
      · exact hslice p hp'
    · intro k hk
      have hko : k ≤ o := hk (w, o) (by simp)
      have h1 : out.take k = (s.take o ++ w ++ s.drop o).take k :=
        hpref k (fun q' hq' => by have := hLB q' hq'; omega)
      have htol : (s.take o).length = o := by
        simp
        omega
      rw [h1, List.append_assoc, List.take_append_eq_append_take, htol]
      have hk0 : k - o = 0 := by omega
      rw [hk0]
      simp [List.take_take, Nat.min_eq_left hko]

theorem zip_getD (words : List Word) (offsets : List Nat) (j : Nat)
    (hw : j < words.length) (ho : j < offsets.length) :
    (words.zip offsets).getD j ([], 0)
      = (words.getD j [], offsets.getD j 0) := by
  have hz : j < (words.zip offsets).length := by
    rw [List.length_zip]
    omega
  rw [List.getD_eq_getElem _ _ hz, List.getD_eq_getElem _ _ hw,
    List.getD_eq_getElem _ _ ho]
  simp [List.getElem_zip]

theorem obfuscate_core (words : List Word) (L R : Nat) (offsets : List Nat)
    (garbage : Word) (hlen : ∀ w ∈ words, w.length = L)
    (hinv : OffsInv words.length L R offsets) (hglen : garbage.length = R) :
    ∃ out, insertAll (words.zip offsets) garbage = some out ∧
      out.length = R + words.length * L ∧
      ∀ p ∈ words.zip offsets, (out.drop p.2).take p.1.length = p.1 := by
  obtain ⟨hoffl, hub, hch⟩ := hinv
  have hzl : (words.zip offsets).length = words.length := by
    rw [List.length_zip, hoffl, Nat.min_self]
  have hchain : List.Chain'
      (fun a b : Word × Nat => a.2 + a.1.length ≤ b.2) (words.zip offsets) := by
    rw [List.chain'_iff_get]
    intro i hi
    rw [hzl] at hi
    have hi1 : i + 1 < words.length := by omega
    have hi0 : i < words.length := by omega
    have hio0 : i < offsets.length := by omega
    have hio1 : i + 1 < offsets.length := by omega
    have hg0 : ((words.zip offsets).get ⟨i, by rw [hzl]; omega⟩)
        = (words[i], offsets[i]) := by
      simp [List.get_eq_getElem, List.getElem_zip]
    have hg1 : ((words.zip offsets).get ⟨i + 1, by rw [hzl]; omega⟩)
        = (words[i + 1], offsets[i + 1]) := by
      simp [List.get_eq_getElem, List.getElem_zip]
    rw [hg0, hg1]
    have hwl : (words[i]).length = L := hlen words[i] (List.getElem_mem hi0)
    have hoi : offsets[i] = offsets.getD i 0 :=
      (List.getD_eq_getElem _ _ hio0).symm
    have hoi1 : offsets[i + 1] = offsets.getD (i + 1) 0 :=
      (List.getD_eq_getElem _ _ hio1).symm
    have hstep := hch i hi1
    simp only [hwl, hoi, hoi1]
    omega
  have hpos : ∀ j, j < (words.zip offsets).length →
      ((words.zip offsets).getD j ([], 0)).2
        ≤ garbage.length
          + (((words.zip offsets).take j).map (fun p => p.1.length)).sum := by
    intro j hj
    rw [hzl] at hj
    have hjo : j < offsets.length := by omega
    rw [zip_getD words offsets j hj hjo]
    have hsum : (((words.zip offsets).take j).map (fun p => p.1.length)).sum
        = j * L := by
      have hmem : ∀ x ∈ ((words.zip offsets).take j).map (fun p => p.1.length),
          x = L := by
        intro x hx
        rcases List.mem_map.1 hx with ⟨p, hp, rfl⟩
        have hpz := List.mem_of_mem_take hp
        exact hlen p.1 (List.of_mem_zip hpz).1
      rw [sum_const_len L _ hmem]
      have hlj : (((words.zip offsets).take j).map (fun p => p.1.length)).length
          = j := by
        simp [hzl]
        omega
      rw [hlj]
    rw [hsum, hglen]
    have hu := hub j (by omega)
    simp only
    omega
  obtain ⟨out, hins, hlen2, hslice, _⟩ :=
    insertAll_spec (words.zip offsets) garbage hchain hpos
  have hmapsum : ((words.zip offsets).map (fun p => p.1.length)).sum
      = words.length * L := by
    have hmem : ∀ x ∈ (words.zip offsets).map (fun p => p.1.length), x = L := by
      intro x hx
      rcases List.mem_map.1 hx with ⟨p, hp, rfl⟩
      exact hlen p.1 (List.of_mem_zip hp).1
    rw [sum_const_len L _ hmem]
    simp [hzl]
  exact ⟨out, hins, by rw [hlen2, hglen, hmapsum], hslice⟩

/-- C1 (amended): for every non-empty list of words all of the same length
and every target size at least the sum of the word lengths,
`obfuscate_words` returns a buffer of length exactly `target_size` and an
offsets array with one entry per input word in input order, such that for
every zipped `(word, offset)` pair the buffer slice
`[offset, offset + len(word))` equals that word, for any behaviour of the
injected rng within its `[lower, upper)` contract (any raw entropy stream).
The equal-length restriction is required: with words of unequal lengths the
insertion loop can splice a later word into the middle of an earlier one (see
the counterexample). -/
theorem C1_obfuscate_equal_len_correct (words : List Word)
    (target_size L : Nat) (rng : Nat → Nat) (hne : words ≠ [])
    (hlen : ∀ w ∈ words, w.length = L)
    (hts : (words.map List.length).sum ≤ target_size) :
    ∃ buf offsets,
      obfuscate_words words target_size rng = some (buf, offsets) ∧
        buf.length = target_size ∧ offsets.length = words.length ∧
        ∀ p ∈ words.zip offsets, (buf.drop p.2).take p.1.length = p.1 := by
  have hsum : (words.map List.length).sum = words.length * L := by
    have h1 : ∀ x ∈ words.map List.length, x = L := by
      intro x hx
      rcases List.mem_map.1 hx with ⟨w, hw, rfl⟩
      exact hlen w hw
    rw [sum_const_len L _ h1, List.length_map]
  have hif : ¬ target_size < (words.map List.length).sum := by omega
  have hinv : OffsInv words.length L
      (target_size - (words.map List.length).sum)
      ((List.range (target_size - (words.map List.length).sum)).foldl
        (fun offs t => bump offs (genRange 0 (offs.length + 1) (rng t)))
        (packOffsets words)) := by
    have h0 := OffsInv_start words L hlen
    have h2 := OffsInv_fold words.length L
      (fun o u => genRange 0 (o.length + 1) (rng u))
      (List.range (target_size - (words.map List.length).sum))
      (packOffsets words) 0 h0
    simpa using h2
  have hglen : ((List.range (target_size - (words.map List.length).sum)).map
      (fun t => Char.ofNat (genRange 35 46
        (rng ((target_size - (words.map List.length).sum) + t))))).length
      = target_size - (words.map List.length).sum := by
    simp
  obtain ⟨out, hins, houtlen, hslice⟩ := obfuscate_core words L
    (target_size - (words.map List.length).sum)
    ((List.range (target_size - (words.map List.length).sum)).foldl
      (fun offs t => bump offs (genRange 0 (offs.length + 1) (rng t)))
      (packOffsets words))
    ((List.range (target_size - (words.map List.length).sum)).map
      (fun t => Char.ofNat (genRange 35 46
        (rng ((target_size - (words.map List.length).sum) + t)))))
    hlen hinv hglen
  refine ⟨out,
    (List.range (target_size - (words.map List.length).sum)).foldl
      (fun offs t => bump offs (genRange 0 (offs.length + 1) (rng t)))
      (packOffsets words), ?_, ?_, hinv.1, hslice⟩
  · simp only [obfuscate_words]
    rw [if_neg hif, hins]
  · rw [houtlen]
    omega

/-- Counterexample for C1 as stated: with the unequal-length words
["aaaa", "bb"] and target size 6 (equal to the word-length sum, so the claim's
precondition holds and no rng call is made), `obfuscate_words` pairs "aaaa"
with offset 0 and "bb" with offset 2, and the insertion loop splices "bb"
into the middle of "aaaa": the buffer is "aabbaa", whose slice [0, 4) is
"aabb", not "aaaa". -/
theorem C1_obfuscate_unequal_len_counterexample :
    obfuscate_words ["aaaa".toList, "bb".toList] 6 (fun _ => 0)
        = some ("aabbaa".toList, [0, 2]) ∧
      ("aabbaa".toList.drop 0).take 4 ≠ "aaaa".toList := by
  constructor
  · decide
  · decide

/-- Witness for C1 at two equal-length words, a target with two filler
characters, and a non-trivial entropy stream. -/
theorem C1_obfuscate_witness :
    ∃ buf offsets,
      obfuscate_words ["ab".toList, "cd".toList] 6 (fun t => t + 3)
          = some (buf, offsets) ∧
        buf.length = 6 ∧ offsets.length = (["ab".toList, "cd".toList]).length ∧
        ∀ p ∈ (["ab".toList, "cd".toList]).zip offsets,
          (buf.drop p.2).take p.1.length = p.1 :=
  C1_obfuscate_equal_len_correct ["ab".toList, "cd".toList] 6 2 (fun t => t + 3)
    (by decide) (by decide) (by decide)

/-- C7 (amended): the pre-filler packed offsets computed by `obfuscate_words`
pair the word at input position `i` with the sum of the lengths of the last
`i` input words — the first input word is paired with offset 0 and later
words are pushed right (the opposite pairing to the claim's: the prepended
zeros line up with the words in input order, not reversed).  When all words
share length `L`, the word at position `i` is paired with offset `i * L`, so
the packing is contiguous with no gaps. -/
theorem C7_pack_offsets_form (words : List Word) (i : Nat)
    (hi : i < words.length) :
    (packOffsets words).getD i 0
        = ((words.reverse.take i).map List.length).sum ∧
      ∀ L, (∀ w ∈ words, w.length = L) →
        (packOffsets words).getD i 0 = i * L :=
  ⟨packOffsets_getD words i hi,
    fun L hlen => packOffsets_getD_mul words L hlen i hi⟩

/-- Counterexample for C7 as stated: for the input ["aaaa", "bb"] the packed
offsets are [0, 2], pairing the first word "aaaa" with 0 and the last word
"bb" with 2 — the claim instead predicts [2, 0] (each word at the sum of the
lengths of the words after it, the last word at 0), and the claimed packing
is not achieved: the last word's offset is 2, not 0. -/
theorem C7_pack_offsets_counterexample :
    packOffsets ["aaaa".toList, "bb".toList] = [0, 2] ∧
      (packOffsets ["aaaa".toList, "bb".toList]).getD 1 0 ≠ 0 := by
  constructor
  · decide
  · decide

/-- Witness for C7 at a concrete word list and position. -/
theorem C7_pack_offsets_witness :
    (packOffsets ["ab".toList, "cd".toList, "ef".toList]).getD 2 0
        = (((["ab".toList, "cd".toList, "ef".toList]).reverse.take 2).map
            List.length).sum ∧
      ∀ L, (∀ w ∈ ["ab".toList, "cd".toList, "ef".toList], w.length = L) →
        (packOffsets ["ab".toList, "cd".toList, "ef".toList]).getD 2 0
          = 2 * L :=
  C7_pack_offsets_form ["ab".toList, "cd".toList, "ef".toList] 2 (by decide)
